import Mathlib

/-!
Verification of the DiceVisualize core: the dice-expression parser, the
exact-distribution evaluator, the Monte Carlo evaluator and the summary
statistics of `src/dice/src/app/page.tsx`, together with the variant parser
of the second source file (`src/unnamed/part_000`).

Strings are modeled as `List Char` internally (`String.toList` at the
boundary); JavaScript numbers produced by `parseInt` are modeled by `JSNum`
(an integer or `NaN`); `Math.random()` is modeled by an explicit stream
`rand : Nat → ℚ` of draws, consumed in program order.
-/

/-- A JavaScript number as produced by this code's calls to `parseInt`:
either an integer, or `NaN` when the string has no leading integer literal. -/
inductive JSNum where
  | nan : JSNum
  | int : Int → JSNum
deriving DecidableEq, Repr

/-- The number of iterations of the JavaScript loop
`for (let i = 0; i < t; i++)` when the bound `t` is the given number:
every comparison with `NaN` is false, so `NaN` gives zero iterations, and a
negative bound also gives zero. -/
def JSNum.loopCount : JSNum → Nat
  | .nan => 0
  | .int t => t.toNat

/-- Numeric value of a list of decimal digit characters, most significant
first (used for the digit groups captured by the regular expressions). -/
def digitsToNat (cs : List Char) : Nat :=
  cs.foldl (fun acc c => 10 * acc + (c.toNat - 48)) 0

/-- Hexadecimal digit test, for `parseInt`'s `0x` prefix handling. -/
def isHexDigitChar (c : Char) : Bool :=
  c.isDigit || ('a' ≤ c && c ≤ 'f') || ('A' ≤ c && c ≤ 'F')

/-- Value of one hexadecimal digit character. -/
def hexDigitVal (c : Char) : Nat :=
  if c.isDigit then c.toNat - 48
  else if 'a' ≤ c && c ≤ 'f' then c.toNat - 87
  else c.toNat - 55

/-- Numeric value of a list of hexadecimal digit characters. -/
def hexToNat (cs : List Char) : Nat :=
  cs.foldl (fun acc c => 16 * acc + hexDigitVal c) 0

/-- Decimal branch of `parseInt`: longest digit prefix, `NaN` when empty. -/
def jsParseIntDec (sign : Int) (cs : List Char) : JSNum :=
  let ds := cs.takeWhile Char.isDigit
  if ds.isEmpty then .nan else .int (sign * digitsToNat ds)

/-- Hexadecimal branch of `parseInt` (after a `0x`/`0X` prefix): longest
hex-digit prefix, `NaN` when empty. -/
def jsParseIntHex (sign : Int) (cs : List Char) : JSNum :=
  let ds := cs.takeWhile isHexDigitChar
  if ds.isEmpty then .nan else .int (sign * hexToNat ds)

/-- JavaScript `parseInt(s)` with no radix argument: skip leading
whitespace, read an optional sign, switch to base 16 after a `0x`/`0X`
prefix, then take the longest prefix of digits; `NaN` if that prefix is
empty. It never throws. -/
def jsParseInt (s : List Char) : JSNum :=
  let cs := s.dropWhile Char.isWhitespace
  let sign : Int := match cs with | '-' :: _ => -1 | _ => 1
  let cs1 := match cs with
    | '-' :: rest => rest
    | '+' :: rest => rest
    | _ => cs
  match cs1 with
  | '0' :: 'x' :: rest => jsParseIntHex sign rest
  | '0' :: 'X' :: rest => jsParseIntHex sign rest
  | _ => jsParseIntDec sign cs1

/-- JavaScript `String.prototype.split` with the one-character separator
used by the code (`"+"`): `"".split("+")` is `[""]`, and adjacent or
trailing separators yield empty components. -/
def splitOnChar (sep : Char) (cs : List Char) : List (List Char) :=
  match cs with
  | [] => [[]]
  | c :: rest =>
    let r := splitOnChar sep rest
    if c = sep then [] :: r
    else match r with
      | [] => [[c]]
      | g :: gs => (c :: g) :: gs

namespace Page

/-- The `DiceRoll` interface of `page.tsx`: `trial` dice of `sides` faces.
`trial` is a `JSNum` because the constant branch of the parser obtains it
from `parseInt`, which can yield `NaN` or a negative number; `sides` is
always a natural number (a digit-group value or the literal `1`) in every
`DiceRoll` this program constructs. -/
structure DiceRoll where
  trial : JSNum
  sides : Nat
deriving DecidableEq, Repr

/-- Match of the regular expression `^(\d+)d(\d+)$`: a nonempty digit
group, the letter `d`, a nonempty digit group, end of string; returns the
two groups' numeric values. The first `\d+` is greedy, and since `d` is not
a digit no backtracking can succeed, so taking the longest digit prefix is
exact. -/
def matchDiceTerm (cs : List Char) : Option (Nat × Nat) :=
  let p1 := cs.takeWhile Char.isDigit
  match cs.drop p1.length with
  | 'd' :: rest =>
    if p1.isEmpty || rest.isEmpty || !rest.all Char.isDigit then none
    else some (digitsToNat p1, digitsToNat rest)
  | _ => none

/-- The error message thrown by `parseNode` in `page.tsx`. -/
def invalidBaseMsg : String :=
  "Invalid base dice expression. Use format like '1d6' or constant '1'"

/-- `parseNode` of `page.tsx`: a component containing `d` must match
`^(\d+)d(\d+)$` (else throw); a component without `d` becomes a constant
`{ trial: parseInt(expr), sides: 1 }` with no validation. -/
def parseNode (expr : List Char) : Except String DiceRoll :=
  if expr.contains 'd' then
    match matchDiceTerm expr with
    | some ts => .ok ⟨.int ts.1, ts.2⟩
    | none => .error invalidBaseMsg
  else
    .ok ⟨jsParseInt expr, 1⟩

/-- The parse loop of `parseDiceExpression`: parse each component in
order, propagating the first thrown error (no partial list survives a
throw). -/
def parseComponents : List (List Char) → Except String (List DiceRoll)
  | [] => .ok []
  | c :: cs =>
    match parseNode c with
    | .error e => .error e
    | .ok r =>
      match parseComponents cs with
      | .error e => .error e
      | .ok rs => .ok (r :: rs)

/-- `parseDiceExpression` of `page.tsx`: split the expression on `+` and
parse each component. Despite the comment `// Remove all whitespace` in the
source, no whitespace is stripped. -/
def parseDiceExpression (expression : String) : Except String (List DiceRoll) :=
  parseComponents (splitOnChar '+' expression.toList)

/-- The face list `aug = [1, …, sides]` built by `getExactDistribution`. -/
def diceFaces (sides : Nat) : List Int :=
  (List.range sides).map (fun (j : Nat) => (j : Int) + 1)

/-- One die folded into the running outcome set:
`results.flatMap(x => aug.map(y => x + y))`. -/
def addDie (results : List Int) (sides : Nat) : List Int :=
  results.flatMap (fun x => (diceFaces sides).map (fun y => x + y))

/-- The inner `for (let i = 0; i < roll.trial; i++)` loop of
`getExactDistribution`: fold one die at a time into the outcome set. -/
def addDice (results : List Int) (sides : Nat) : Nat → List Int
  | 0 => results
  | n + 1 => addDice (addDie results sides) sides n

/-- `getExactDistribution` of `page.tsx`: start from `[0]` and fold every
die of every roll into the outcome set. -/
def getExactDistribution (diceRolls : List DiceRoll) : List Int :=
  diceRolls.foldl (fun results r => addDice results r.sides r.trial.loopCount) [0]

/-- One die face drawn by the Monte Carlo evaluator:
`Math.floor(Math.random() * roll.sides) + 1` with `Math.random()` modeled
by the rational draw `r`. -/
def jsFace (r : ℚ) (sides : Nat) : Int :=
  ⌊r * (sides : ℚ)⌋ + 1

/-- The inner `for (let j = 0; j < roll.trial; j++)` loop of
`getMonteCarloDistribution`: add one drawn face per iteration, consuming
one draw of the stream `rand` each time (`k` is the index of the next
unconsumed draw). -/
def simRoll (rand : Nat → ℚ) (sides : Nat) : Nat → Int → Nat → Int × Nat
  | 0, current, k => (current, k)
  | j + 1, current, k => simRoll rand sides j (current + jsFace (rand k) sides) (k + 1)

/-- The `for (const roll of diceRolls)` loop of one simulation. -/
def simDice (rand : Nat → ℚ) : List DiceRoll → Int → Nat → Int × Nat
  | [], current, k => (current, k)
  | r :: rs, current, k =>
    let ck := simRoll rand r.sides r.trial.loopCount current k
    simDice rand rs ck.1 ck.2

/-- The outer simulation loop: `n` simulations starting from draw index
`k`, each simulation starting from `current = 0`. -/
def runSims (rand : Nat → ℚ) (diceRolls : List DiceRoll) : Nat → Nat → List Int
  | 0, _ => []
  | n + 1, k =>
    let vk := simDice rand diceRolls 0 k
    vk.1 :: runSims rand diceRolls n vk.2

/-- `getMonteCarloDistribution` of `page.tsx`. `numSimulations` is an
arbitrary integer as in the source; the loop `for (let i = 0; i <
numSimulations; i++)` runs `numSimulations.toNat` times. -/
def getMonteCarloDistribution (diceRolls : List DiceRoll) (numSimulations : Int)
    (rand : Nat → ℚ) : List Int :=
  runSims rand diceRolls numSimulations.toNat 0

/-- `stats.min` of `page.tsx`: `Math.min(...distribution)` guarded by the
length check, `0` on the empty sequence. -/
def statsMin (distribution : List Int) : Int :=
  match distribution with
  | [] => 0
  | x :: xs => xs.foldl min x

/-- `stats.max` of `page.tsx`: `Math.max(...distribution)` guarded by the
length check, `0` on the empty sequence. -/
def statsMax (distribution : List Int) : Int :=
  match distribution with
  | [] => 0
  | x :: xs => xs.foldl max x

/-- `stats.mean` of `page.tsx`: the sum divided by the length, `0` on the
empty sequence (rational division models the floating-point division). -/
def statsMean (distribution : List Int) : ℚ :=
  match distribution with
  | [] => 0
  | _ => (distribution.sum : ℚ) / distribution.length

end Page

namespace Unnamed

/-- The `DiceRoll` interface of the variant source file: `multiplier` and
`sides` come from `parseInt` (so can be `NaN`), and `modifier` is the
remainder string captured by the third regex group (defaulting to `"+"`). -/
structure DiceRoll where
  multiplier : JSNum
  sides : JSNum
  modifier : List Char
deriving DecidableEq, Repr

/-- `expression.replace(/\s+/g, '')`: remove every whitespace character. -/
def stripWhitespace (cs : List Char) : List Char :=
  cs.filter (fun c => !c.isWhitespace)

/-- `expression.replace(/\(/g, "1d(")`: rewrite every `(` into `1d(`. (The
subsequent `replace(/\)/g, ")")` of the source is the identity and is
omitted.) -/
def insertOneD (cs : List Char) : List Char :=
  cs.flatMap (fun c => if c = '(' then ['1', 'd', '('] else [c])

/-- Match of the regular expression `^(\d+)(d\d+)(.*)$`: a nonempty digit
group, then `d` followed by a nonempty digit group (greedy), then the rest
of the string; returns the three captured groups. -/
def matchDiceTermB (cs : List Char) :
    Option (List Char × List Char × List Char) :=
  let p1 := cs.takeWhile Char.isDigit
  if p1.isEmpty then none else
  match cs.drop p1.length with
  | 'd' :: rest =>
    let p2 := rest.takeWhile Char.isDigit
    if p2.isEmpty then none
    else some (p1, 'd' :: p2, rest.drop p2.length)
  | _ => none

/-- The error message thrown by the variant `parseNode`. -/
def invalidMsg : String :=
  "Invalid dice expression. Use format like '1d6' or '2d10+1d4'"

/-- `parseNode` of the variant file: one match of `^(\d+)(d\d+)(.*)$`
against the whole expression; `multiplier = parseInt(match[1])`,
`sides = parseInt(match[2])` (whose argument starts with `d`, so it is
always `NaN`), `modifier = match[3] || "+"`. There is no recursion. -/
def parseNode (expr : List Char) : Except String DiceRoll :=
  match matchDiceTermB expr with
  | none => .error invalidMsg
  | some g =>
    .ok ⟨jsParseInt g.1, jsParseInt g.2.1, if g.2.2.isEmpty then ['+'] else g.2.2⟩

/-- `parseDiceExpression` of the variant file: strip whitespace, rewrite
`(` into `1d(`, then apply `parseNode` once to the whole string. -/
def parseDiceExpression (expression : String) : Except String DiceRoll :=
  parseNode (insertOneD (stripWhitespace expression.toList))

end Unnamed


/-- Sum over the rolls of the number of dice actually rolled (the value of
`trial` for well-formed rolls): the least possible total when every die
shows face `1`. -/
def sumTrials (dr : List Page.DiceRoll) : Nat :=
  (dr.map (fun r => r.trial.loopCount)).sum

/-- Sum over the rolls of `trial * sides`: the greatest possible total,
when every die shows its maximal face. -/
def sumMaxFaces (dr : List Page.DiceRoll) : Nat :=
  (dr.map (fun r => r.trial.loopCount * r.sides)).sum

/-- A concrete realization of the random source that always draws `0`. -/
def constRandZero : Nat → ℚ := fun _ => 0

theorem diceFaces_length (sides : Nat) : (Page.diceFaces sides).length = sides := by
  rw [Page.diceFaces, List.length_map, List.length_range]

theorem addDie_length (results : List Int) (sides : Nat) :
    (Page.addDie results sides).length = results.length * sides := by
  induction results with
  | nil => simp [Page.addDie]
  | cons x xs ih =>
    simp only [Page.addDie, List.flatMap_cons, List.length_append, List.length_map,
      List.length_cons] at *
    rw [diceFaces_length, ih]
    ring

theorem addDice_length (results : List Int) (sides n : Nat) :
    (Page.addDice results sides n).length = results.length * sides ^ n := by
  induction n generalizing results with
  | zero => simp [Page.addDice]
  | succ n ih =>
    have hstep : Page.addDice results sides (n + 1)
        = Page.addDice (Page.addDie results sides) sides n := rfl
    rw [hstep, ih, addDie_length]
    ring

theorem getExact_aux_length (dr : List Page.DiceRoll) (results : List Int) :
    (dr.foldl (fun acc r => Page.addDice acc r.sides r.trial.loopCount) results).length
      = results.length * (dr.map (fun r => r.sides ^ r.trial.loopCount)).prod := by
  induction dr generalizing results with
  | nil => simp
  | cons r rs ih =>
    simp only [List.foldl_cons, List.map_cons, List.prod_cons]
    rw [ih, addDice_length]
    ring

/-- C1: for every well-formed dice-roll list (each leaf with at least one
die and at least one side), the exact evaluator's output length is the
product over the rolls of `sides ^ trial`. -/
theorem exact_length_eq_prod (dr : List Page.DiceRoll)
    (h : ∀ r ∈ dr, 1 ≤ r.trial.loopCount ∧ 1 ≤ r.sides) :
    (Page.getExactDistribution dr).length
      = (dr.map (fun r => r.sides ^ r.trial.loopCount)).prod := by
  have := getExact_aux_length dr [0]
  simpa [Page.getExactDistribution] using this

/-- C1 witness: the parse of `"2d6"` is the single roll `2d6`, and its exact
distribution has `6 ^ 2 = 36` outcomes. -/
theorem exact_length_eq_prod_witness :
    Page.parseDiceExpression "2d6" = .ok [⟨.int 2, 6⟩] ∧
    (Page.getExactDistribution [⟨.int 2, 6⟩]).length = 36 := by
  refine ⟨rfl, ?_⟩
  have h := exact_length_eq_prod [⟨.int 2, 6⟩] (by decide)
  rw [h]
  decide

/-- C2: the exact evaluator on the parse of `"1d6+1d6"` yields the classic
two-die sum distribution: 36 outcomes, the value 7 six times, the values 2
and 12 once each. -/
theorem exact_two_d6_sum_frequencies :
    Page.parseDiceExpression "1d6+1d6" = .ok [⟨.int 1, 6⟩, ⟨.int 1, 6⟩] ∧
    (Page.getExactDistribution [⟨.int 1, 6⟩, ⟨.int 1, 6⟩]).length = 36 ∧
    (Page.getExactDistribution [⟨.int 1, 6⟩, ⟨.int 1, 6⟩]).count 7 = 6 ∧
    (Page.getExactDistribution [⟨.int 1, 6⟩, ⟨.int 1, 6⟩]).count 2 = 1 ∧
    (Page.getExactDistribution [⟨.int 1, 6⟩, ⟨.int 1, 6⟩]).count 12 = 1 :=
  ⟨rfl, by decide, by decide, by decide, by decide⟩

theorem parseNode_error_iff (c : List Char) :
    (∃ msg, Page.parseNode c = .error msg) ↔
      (c.contains 'd' = true ∧ Page.matchDiceTerm c = none) := by
  unfold Page.parseNode
  by_cases h : 'd' ∈ c
  · cases hm : Page.matchDiceTerm c <;> simp [h, hm]
  · simp [h]

theorem parseComponents_error_iff (l : List (List Char)) :
    (∃ msg, Page.parseComponents l = .error msg) ↔
      ∃ c ∈ l, c.contains 'd' = true ∧ Page.matchDiceTerm c = none := by
  induction l with
  | nil => simp [Page.parseComponents]
  | cons c cs ih =>
    rw [Page.parseComponents]
    cases hc : Page.parseNode c with
    | error e =>
      simp only [List.mem_cons]
      constructor
      · intro _
        exact ⟨c, Or.inl rfl, (parseNode_error_iff c).mp ⟨e, hc⟩⟩
      · intro _
        exact ⟨e, rfl⟩
    | ok r =>
      cases hcs : Page.parseComponents cs with
      | error e =>
        simp only [List.mem_cons]
        constructor
        · intro _
          obtain ⟨c', hmem, hprop⟩ := ih.mp ⟨e, hcs⟩
          exact ⟨c', Or.inr hmem, hprop⟩
        · intro _
          exact ⟨e, rfl⟩
      | ok rs =>
        simp only [List.mem_cons]
        constructor
        · rintro ⟨msg, hmsg⟩
          exact absurd hmsg (fun h => Except.noConfusion h)
        · rintro ⟨c', hmem, hprop⟩
          rcases hmem with rfl | hmem
          · obtain ⟨msg, hmsg⟩ := (parseNode_error_iff c').mpr hprop
            rw [hc] at hmsg
            exact absurd hmsg (fun h => Except.noConfusion h)
          · obtain ⟨msg, hmsg⟩ := ih.mpr ⟨c', hmem, hprop⟩
            rw [hcs] at hmsg
            exact absurd hmsg (fun h => Except.noConfusion h)

/-- C3 counterexample: the malformed strings `"1x6"` and `""` do NOT make
`parseDiceExpression` throw: a component without `d` is handed to
`parseInt`, so `"1x6"` parses as the constant `1` and `""` as a `NaN`
constant; only `"d6"` (a `d`-component failing the pattern) throws. -/
theorem parse_malformed_counterexample :
    Page.parseDiceExpression "1x6" = .ok [⟨.int 1, 1⟩] ∧
    Page.parseDiceExpression "" = .ok [⟨.nan, 1⟩] ∧
    Page.parseDiceExpression "d6" = .error Page.invalidBaseMsg :=
  ⟨rfl, rfl, rfl⟩

/-- C3 amended: `parseDiceExpression` throws exactly when some
`+`-separated component contains the letter `d` yet fails the pattern
`^(\d+)d(\d+)$`; components without a `d` (such as `"1x6"` or `""`) never
throw, they are handed to `parseInt`. -/
theorem parse_error_iff_bad_dice_component (e : String) :
    (∃ msg, Page.parseDiceExpression e = .error msg) ↔
      ∃ c ∈ splitOnChar '+' e.toList,
        c.contains 'd' = true ∧ Page.matchDiceTerm c = none :=
  parseComponents_error_iff _

/-- C3 amended witness: at `"d6"`, the single component contains `d` and
fails the pattern, so the parser throws. -/
theorem parse_error_iff_bad_dice_component_witness :
    ∃ msg, Page.parseDiceExpression "d6" = .error msg :=
  (parse_error_iff_bad_dice_component "d6").mpr
    ⟨"d6".toList, by decide, by decide, by decide⟩

/-- C5: contrary to the `// Remove all whitespace` comment in the source
(and to the spec), `page.tsx` strips no whitespace: `"1d6 +1d6"` throws
while its whitespace-free form `"1d6+1d6"` parses, so parsing is not
whitespace-insensitive. -/
theorem whitespace_not_stripped_bug :
    Page.parseDiceExpression "1d6 +1d6" = .error Page.invalidBaseMsg ∧
    Page.parseDiceExpression "1d6+1d6" = .ok [⟨.int 1, 6⟩, ⟨.int 1, 6⟩] ∧
    Page.parseDiceExpression "1d6 +1d6" ≠ Page.parseDiceExpression "1d6+1d6" :=
  ⟨rfl, rfl, fun h => Except.noConfusion h⟩

/-- C6: the variant parser does rewrite `(` into `1d(`, but performs no
recursion: the rewritten string is matched once against
`^(\d+)(d\d+)(.*)$`, which cannot accept the `(` after the inserted `d`,
so the parenthesized expression `"(2d6)"` throws instead of producing a
nested tree. -/
theorem paren_rewrite_not_recursive :
    Unnamed.insertOneD (Unnamed.stripWhitespace "(2d6)".toList) = "1d(2d6)".toList ∧
    Unnamed.parseDiceExpression "(2d6)" = .error Unnamed.invalidMsg :=
  ⟨rfl, rfl⟩

/-- C7: the parser is a pure function of its input string: two parses of
the same string that both succeed yield structurally equal roll lists. -/
theorem parse_deterministic (s : String) (t₁ t₂ : List Page.DiceRoll)
    (h₁ : Page.parseDiceExpression s = .ok t₁)
    (h₂ : Page.parseDiceExpression s = .ok t₂) : t₁ = t₂ :=
  Except.ok.inj (h₁.symm.trans h₂)

/-- C7 witness: two parses of `"1d6"` yield the same roll list. -/
theorem parse_deterministic_witness :
    Page.parseDiceExpression "1d6" = .ok [⟨.int 1, 6⟩] ∧
    ([(⟨.int 1, 6⟩ : Page.DiceRoll)] = [(⟨.int 1, 6⟩ : Page.DiceRoll)]) :=
  ⟨rfl, parse_deterministic "1d6" _ _ rfl rfl⟩

/-- C8: the summary statistics on the empty outcome sequence are the
degenerate defaults `min = 0`, `max = 0`, `mean = 0` (the length guard
short-circuits, nothing throws). -/
theorem stats_empty_zero :
    Page.statsMin [] = 0 ∧ Page.statsMax [] = 0 ∧ Page.statsMean [] = 0 :=
  ⟨rfl, rfl, rfl⟩

theorem mem_diceFaces (sides : Nat) (y : Int) (hy : y ∈ Page.diceFaces sides) :
    1 ≤ y ∧ y ≤ sides := by
  simp only [Page.diceFaces, List.mem_map, List.mem_range] at hy
  obtain ⟨j, hj, rfl⟩ := hy
  omega

theorem addDie_mem_bounds (results : List Int) (sides : Nat) (v : Int)
    (hv : v ∈ Page.addDie results sides) :
    ∃ x ∈ results, x + 1 ≤ v ∧ v ≤ x + sides := by
  simp only [Page.addDie, List.mem_flatMap, List.mem_map] at hv
  obtain ⟨x, hx, y, hy, rfl⟩ := hv
  obtain ⟨h1, h2⟩ := mem_diceFaces sides y hy
  exact ⟨x, hx, by omega, by omega⟩

theorem addDice_mem_bounds (sides n : Nat) :
    ∀ (results : List Int) (v : Int), v ∈ Page.addDice results sides n →
      ∃ x ∈ results, x + n ≤ v ∧ v ≤ x + n * sides := by
  induction n with
  | zero =>
    intro results v hv
    exact ⟨v, hv, by simp, by simp⟩
  | succ n ih =>
    intro results v hv
    rw [show Page.addDice results sides (n + 1)
        = Page.addDice (Page.addDie results sides) sides n from rfl] at hv
    obtain ⟨x', hx', hl, hr⟩ := ih (Page.addDie results sides) v hv
    obtain ⟨x, hx, h1, h2⟩ := addDie_mem_bounds results sides x' hx'
    refine ⟨x, hx, ?_, ?_⟩ <;> push_cast at * <;> nlinarith

theorem exact_foldl_mem_bounds (dr : List Page.DiceRoll) :
    ∀ (results : List Int) (v : Int),
      v ∈ dr.foldl (fun acc r => Page.addDice acc r.sides r.trial.loopCount) results →
      ∃ x ∈ results, x + sumTrials dr ≤ v ∧ v ≤ x + sumMaxFaces dr := by
  induction dr with
  | nil =>
    intro results v hv
    exact ⟨v, hv, by simp [sumTrials], by simp [sumMaxFaces]⟩
  | cons r rs ih =>
    intro results v hv
    rw [List.foldl_cons] at hv
    obtain ⟨x', hx', hl, hr⟩ := ih _ v hv
    obtain ⟨x, hx, h1, h2⟩ := addDice_mem_bounds r.sides r.trial.loopCount results x' hx'
    refine ⟨x, hx, ?_, ?_⟩ <;>
      simp only [sumTrials, sumMaxFaces, List.map_cons, List.sum_cons] at * <;>
      push_cast at * <;> linarith

/-- C9: for a well-formed dice-roll list, every entry of the exact
distribution lies between the sum of the trial counts (all dice showing 1)
and the sum of `trial * sides` (all dice at their maximal face). -/
theorem exact_outcomes_within_bounds (dr : List Page.DiceRoll)
    (h : ∀ r ∈ dr, 1 ≤ r.trial.loopCount ∧ 1 ≤ r.sides) :
    ∀ v ∈ Page.getExactDistribution dr,
      (sumTrials dr : Int) ≤ v ∧ v ≤ (sumMaxFaces dr : Int) := by
  intro v hv
  obtain ⟨x, hx, hl, hr⟩ := exact_foldl_mem_bounds dr [0] v hv
  simp only [List.mem_singleton] at hx
  subst hx
  constructor <;> omega

/-- C9 witness: `2` is an outcome of the exact distribution of `2d6` and
lies within `[sumTrials, sumMaxFaces] = [2, 12]`. -/
theorem exact_outcomes_within_bounds_witness :
    ((2:Int) ∈ Page.getExactDistribution [⟨.int 2, 6⟩]) ∧
    ((sumTrials [⟨.int 2, 6⟩] : Int) ≤ 2 ∧
      (2:Int) ≤ (sumMaxFaces [⟨.int 2, 6⟩] : Int)) :=
  ⟨by decide, exact_outcomes_within_bounds [⟨.int 2, 6⟩] (by decide) 2 (by decide)⟩

theorem one_mem_diceFaces (sides : Nat) (h : 1 ≤ sides) :
    (1:Int) ∈ Page.diceFaces sides := by
  simp only [Page.diceFaces, List.mem_map, List.mem_range]
  exact ⟨0, by omega, by norm_num⟩

theorem sides_mem_diceFaces (sides : Nat) (h : 1 ≤ sides) :
    (sides:Int) ∈ Page.diceFaces sides := by
  simp only [Page.diceFaces, List.mem_map, List.mem_range]
  refine ⟨sides - 1, by omega, ?_⟩
  omega

theorem addDie_mem_of_mem (results : List Int) (sides : Nat) (x y : Int)
    (hx : x ∈ results) (hy : y ∈ Page.diceFaces sides) :
    x + y ∈ Page.addDie results sides := by
  simp only [Page.addDie, List.mem_flatMap, List.mem_map]
  exact ⟨x, hx, y, hy, rfl⟩

theorem addDice_mem_lo (sides : Nat) (h : 1 ≤ sides) (n : Nat) :
    ∀ (results : List Int) (x : Int), x ∈ results →
      x + n ∈ Page.addDice results sides n := by
  induction n with
  | zero => intro results x hx; simpa using hx
  | succ n ih =>
    intro results x hx
    rw [show Page.addDice results sides (n + 1)
        = Page.addDice (Page.addDie results sides) sides n from rfl]
    have h1 : x + 1 ∈ Page.addDie results sides :=
      addDie_mem_of_mem results sides x 1 hx (one_mem_diceFaces sides h)
    have h2 := ih (Page.addDie results sides) (x + 1) h1
    have heq : x + ((n + 1 : Nat) : Int) = (x + 1) + (n : Int) := by push_cast; ring
    rw [heq]
    exact h2

theorem addDice_mem_hi (sides : Nat) (h : 1 ≤ sides) (n : Nat) :
    ∀ (results : List Int) (x : Int), x ∈ results →
      x + n * sides ∈ Page.addDice results sides n := by
  induction n with
  | zero => intro results x hx; simpa using hx
  | succ n ih =>
    intro results x hx
    rw [show Page.addDice results sides (n + 1)
        = Page.addDice (Page.addDie results sides) sides n from rfl]
    have h1 : x + sides ∈ Page.addDie results sides :=
      addDie_mem_of_mem results sides x sides hx (sides_mem_diceFaces sides h)
    have h2 := ih (Page.addDie results sides) (x + sides) h1
    have heq : x + ((n + 1 : Nat) : Int) * sides = (x + sides) + (n : Int) * sides := by
      push_cast; ring
    rw [heq]
    exact h2

theorem exact_foldl_mem_lo (dr : List Page.DiceRoll) (hs : ∀ r ∈ dr, 1 ≤ r.sides) :
    ∀ (results : List Int) (x : Int), x ∈ results →
      x + sumTrials dr
        ∈ dr.foldl (fun acc r => Page.addDice acc r.sides r.trial.loopCount) results := by
  induction dr with
  | nil => intro results x hx; simpa [sumTrials] using hx
  | cons r rs ih =>
    intro results x hx
    rw [List.foldl_cons]
    have h1 := addDice_mem_lo r.sides (hs r (by simp)) r.trial.loopCount results x hx
    have h2 := ih (fun r' hr' => hs r' (by simp [hr'])) _ _ h1
    have heq : x + (sumTrials (r :: rs) : Int)
        = (x + (r.trial.loopCount : Int)) + (sumTrials rs : Int) := by
      simp only [sumTrials, List.map_cons, List.sum_cons]
      push_cast; ring
    rw [heq]
    exact h2

theorem exact_foldl_mem_hi (dr : List Page.DiceRoll) (hs : ∀ r ∈ dr, 1 ≤ r.sides) :
    ∀ (results : List Int) (x : Int), x ∈ results →
      x + sumMaxFaces dr
        ∈ dr.foldl (fun acc r => Page.addDice acc r.sides r.trial.loopCount) results := by
  induction dr with
  | nil => intro results x hx; simpa [sumMaxFaces] using hx
  | cons r rs ih =>
    intro results x hx
    rw [List.foldl_cons]
    have h1 := addDice_mem_hi r.sides (hs r (by simp)) r.trial.loopCount results x hx
    have h2 := ih (fun r' hr' => hs r' (by simp [hr'])) _ _ h1
    have heq : x + (sumMaxFaces (r :: rs) : Int)
        = (x + (r.trial.loopCount : Int) * (r.sides : Int)) + (sumMaxFaces rs : Int) := by
      simp only [sumMaxFaces, List.map_cons, List.sum_cons]
      push_cast; ring
    rw [heq]
    exact h2

theorem foldl_min_le_init (ys : List Int) (a : Int) : ys.foldl min a ≤ a := by
  induction ys generalizing a with
  | nil => simp
  | cons y ys ih =>
    simp only [List.foldl_cons]
    exact le_trans (ih (min a y)) (min_le_left a y)

theorem foldl_min_le_mem (ys : List Int) (x : Int) (hx : x ∈ ys) :
    ∀ a, ys.foldl min a ≤ x := by
  induction ys with
  | nil => cases hx
  | cons y ys ih =>
    intro a
    simp only [List.foldl_cons]
    rcases List.mem_cons.mp hx with rfl | hx'
    · exact le_trans (foldl_min_le_init ys (min a x)) (min_le_right a x)
    · exact ih hx' (min a y)

theorem statsMin_le_mem (l : List Int) (x : Int) (hx : x ∈ l) :
    Page.statsMin l ≤ x := by
  cases l with
  | nil => cases hx
  | cons y ys =>
    simp only [Page.statsMin]
    rcases List.mem_cons.mp hx with rfl | hx'
    · exact foldl_min_le_init ys x
    · exact foldl_min_le_mem ys x hx' y

theorem init_le_foldl_max (ys : List Int) (a : Int) : a ≤ ys.foldl max a := by
  induction ys generalizing a with
  | nil => simp
  | cons y ys ih =>
    simp only [List.foldl_cons]
    exact le_trans (le_max_left a y) (ih (max a y))

theorem mem_le_foldl_max (ys : List Int) (x : Int) (hx : x ∈ ys) :
    ∀ a, x ≤ ys.foldl max a := by
  induction ys with
  | nil => cases hx
  | cons y ys ih =>
    intro a
    simp only [List.foldl_cons]
    rcases List.mem_cons.mp hx with rfl | hx'
    · exact le_trans (le_max_right a x) (init_le_foldl_max ys (max a x))
    · exact ih hx' (max a y)

theorem mem_le_statsMax (l : List Int) (x : Int) (hx : x ∈ l) :
    x ≤ Page.statsMax l := by
  cases l with
  | nil => cases hx
  | cons y ys =>
    simp only [Page.statsMax]
    rcases List.mem_cons.mp hx with rfl | hx'
    · exact init_le_foldl_max ys x
    · exact mem_le_foldl_max ys x hx' y

theorem jsFace_bounds (r : ℚ) (sides : Nat) (h0 : 0 ≤ r) (h1 : r < 1)
    (hs : 1 ≤ sides) :
    1 ≤ Page.jsFace r sides ∧ Page.jsFace r sides ≤ sides := by
  unfold Page.jsFace
  have hs' : (0:ℚ) < (sides:ℚ) := by
    have : 0 < sides := hs
    exact_mod_cast this
  constructor
  · have hnn : (0:Int) ≤ ⌊r * (sides:ℚ)⌋ :=
      Int.floor_nonneg.mpr (mul_nonneg h0 hs'.le)
    omega
  · have hlt : r * (sides:ℚ) < ((sides:Int) : ℚ) := by
      have := mul_lt_mul_of_pos_right h1 hs'
      rw [one_mul] at this
      exact_mod_cast this
    have hfl : ⌊r * (sides:ℚ)⌋ < (sides:Int) := Int.floor_lt.mpr hlt
    omega

theorem simRoll_fst_bounds (rand : Nat → ℚ) (hrand : ∀ n, 0 ≤ rand n ∧ rand n < 1)
    (sides : Nat) (hs : 1 ≤ sides) :
    ∀ (j : Nat) (current : Int) (k : Nat),
      current + j ≤ (Page.simRoll rand sides j current k).1 ∧
      (Page.simRoll rand sides j current k).1 ≤ current + j * sides := by
  intro j
  induction j with
  | zero => intro current k; simp [Page.simRoll]
  | succ j ih =>
    intro current k
    rw [show Page.simRoll rand sides (j + 1) current k
        = Page.simRoll rand sides j (current + Page.jsFace (rand k) sides) (k + 1) from rfl]
    obtain ⟨hl, hr⟩ := ih (current + Page.jsFace (rand k) sides) (k + 1)
    obtain ⟨hf1, hf2⟩ := jsFace_bounds (rand k) sides (hrand k).1 (hrand k).2 hs
    constructor
    · push_cast at *
      linarith
    · push_cast at *
      linarith

theorem simDice_fst_bounds (rand : Nat → ℚ) (hrand : ∀ n, 0 ≤ rand n ∧ rand n < 1) :
    ∀ (dr : List Page.DiceRoll), (∀ r ∈ dr, 1 ≤ r.sides) →
    ∀ (current : Int) (k : Nat),
      current + sumTrials dr ≤ (Page.simDice rand dr current k).1 ∧
      (Page.simDice rand dr current k).1 ≤ current + sumMaxFaces dr := by
  intro dr
  induction dr with
  | nil => intro _ current k; simp [Page.simDice, sumTrials, sumMaxFaces]
  | cons r rs ih =>
    intro hs current k
    rw [show Page.simDice rand (r :: rs) current k
        = Page.simDice rand rs (Page.simRoll rand r.sides r.trial.loopCount current k).1
            (Page.simRoll rand r.sides r.trial.loopCount current k).2 from rfl]
    obtain ⟨h1, h2⟩ :=
      simRoll_fst_bounds rand hrand r.sides (hs r (by simp)) r.trial.loopCount current k
    obtain ⟨h3, h4⟩ := ih (fun r' hr' => hs r' (by simp [hr']))
      (Page.simRoll rand r.sides r.trial.loopCount current k).1
      (Page.simRoll rand r.sides r.trial.loopCount current k).2
    constructor
    · have heq : (sumTrials (r :: rs) : Int)
          = (r.trial.loopCount : Int) + (sumTrials rs : Int) := by
        simp only [sumTrials, List.map_cons, List.sum_cons]; push_cast; ring
      rw [heq]; linarith
    · have heq : (sumMaxFaces (r :: rs) : Int)
          = (r.trial.loopCount : Int) * (r.sides : Int) + (sumMaxFaces rs : Int) := by
        simp only [sumMaxFaces, List.map_cons, List.sum_cons]; push_cast; ring
      rw [heq]; linarith

theorem runSims_length (rand : Nat → ℚ) (dr : List Page.DiceRoll) :
    ∀ (n k : Nat), (Page.runSims rand dr n k).length = n := by
  intro n
  induction n with
  | zero => intro k; rfl
  | succ n ih =>
    intro k
    rw [show Page.runSims rand dr (n + 1) k
        = (Page.simDice rand dr 0 k).1 :: Page.runSims rand dr n (Page.simDice rand dr 0 k).2
        from rfl]
    rw [List.length_cons, ih]

theorem runSims_mem (rand : Nat → ℚ) (dr : List Page.DiceRoll) :
    ∀ (n k : Nat) (v : Int), v ∈ Page.runSims rand dr n k →
      ∃ k', v = (Page.simDice rand dr 0 k').1 := by
  intro n
  induction n with
  | zero => intro k v hv; cases hv
  | succ n ih =>
    intro k v hv
    rw [show Page.runSims rand dr (n + 1) k
        = (Page.simDice rand dr 0 k).1 :: Page.runSims rand dr n (Page.simDice rand dr 0 k).2
        from rfl] at hv
    rcases List.mem_cons.mp hv with rfl | hv'
    · exact ⟨k, rfl⟩
    · exact ih _ v hv'

/-- C4: on a well-formed dice-roll list with a positive simulation count
and any realization of the uniform random source over `[0,1)`, the Monte
Carlo evaluator returns exactly `N` values, each lying between the minimum
and the maximum of the exact distribution. -/
theorem monte_carlo_length_and_range (dr : List Page.DiceRoll)
    (hwf : ∀ r ∈ dr, 1 ≤ r.trial.loopCount ∧ 1 ≤ r.sides)
    (N : Int) (hN : 0 < N) (rand : Nat → ℚ)
    (hrand : ∀ n, 0 ≤ rand n ∧ rand n < 1) :
    ((Page.getMonteCarloDistribution dr N rand).length : Int) = N ∧
    ∀ v ∈ Page.getMonteCarloDistribution dr N rand,
      Page.statsMin (Page.getExactDistribution dr) ≤ v ∧
      v ≤ Page.statsMax (Page.getExactDistribution dr) := by
  have hs : ∀ r ∈ dr, 1 ≤ r.sides := fun r hr => (hwf r hr).2
  constructor
  · show ((Page.runSims rand dr N.toNat 0).length : Int) = N
    rw [runSims_length rand dr N.toNat 0]
    exact Int.toNat_of_nonneg hN.le
  · intro v hv
    obtain ⟨k', rfl⟩ := runSims_mem rand dr N.toNat 0 v hv
    obtain ⟨hl, hr⟩ := simDice_fst_bounds rand hrand dr hs 0 k'
    have hmemlo : (sumTrials dr : Int) ∈ Page.getExactDistribution dr := by
      have := exact_foldl_mem_lo dr hs [0] 0 (by simp)
      simpa [Page.getExactDistribution] using this
    have hmemhi : (sumMaxFaces dr : Int) ∈ Page.getExactDistribution dr := by
      have := exact_foldl_mem_hi dr hs [0] 0 (by simp)
      simpa [Page.getExactDistribution] using this
    constructor
    · exact le_trans (statsMin_le_mem _ _ hmemlo) (by simpa using hl)
    · exact le_trans (by simpa using hr) (mem_le_statsMax _ _ hmemhi)

/-- C4 witness: one simulation of `1d2` under the all-zero random source
yields one value, `1`, which lies within the exact distribution's extrema. -/
theorem monte_carlo_length_and_range_witness :
    ((Page.getMonteCarloDistribution [⟨.int 1, 2⟩] 1 constRandZero).length : Int) = 1 ∧
    (Page.statsMin (Page.getExactDistribution [⟨.int 1, 2⟩]) ≤ 1 ∧
      (1:Int) ≤ Page.statsMax (Page.getExactDistribution [⟨.int 1, 2⟩])) := by
  have h := monte_carlo_length_and_range [⟨.int 1, 2⟩] (by decide) 1 (by decide)
      constRandZero (fun n => ⟨le_refl 0, by simp [constRandZero]⟩)
  refine ⟨h.1, h.2 1 ?_⟩
  have hmc : Page.getMonteCarloDistribution [⟨.int 1, 2⟩] 1 constRandZero = [1] := by
    simp [Page.getMonteCarloDistribution, Page.runSims, Page.simDice, Page.simRoll,
      Page.jsFace, constRandZero, JSNum.loopCount]
  rw [hmc]
  exact List.mem_singleton.mpr rfl

/-- C10: a simulation count of zero or a negative number makes the Monte
Carlo loop run zero times: the evaluator returns the empty sequence for
every dice-roll list and random source, without failing. -/
theorem monte_carlo_nonpositive_count_empty (dr : List Page.DiceRoll) (N : Int)
    (hN : N ≤ 0) (rand : Nat → ℚ) :
    Page.getMonteCarloDistribution dr N rand = [] := by
  unfold Page.getMonteCarloDistribution
  rw [Int.toNat_of_nonpos hN]
  rfl

/-- C10 witness: a simulation count of `-3` yields the empty sequence. -/
theorem monte_carlo_nonpositive_count_empty_witness :
    Page.getMonteCarloDistribution [⟨.int 1, 6⟩] (-3) constRandZero = [] :=
  monte_carlo_nonpositive_count_empty [⟨.int 1, 6⟩] (-3) (by decide) constRandZero
